import Mathlib

/-!
Verification of the dispatch/collect engine of the elasticsearch
benchmark client (main.go).

The development shallowly embeds, from the source:

* the result multiplexer `waitForCases` (a loop over a shrinking slice
  of reflect.Select receive cases, classifying each received value by
  comparing the chosen index with the mutable `middle` index);
* the case-slice construction `prepareCases` (outputs first, then
  error channels) and the channel sizing of `prepareChannels`;
* the round-robin dispatch loop of `createParallel` / `searchParallel`
  (item i goes to input channel i % concurrency, then every input
  channel is closed once);
* the workers `createAsync` / `searchAsync` (drain own input, emit one
  outcome per item, type-assert each job and panic on a wrong type,
  close own output and error channels via defer after the input is
  exhausted);
* the record-log line sampler `getLine` (SplitN on colons, field-count
  and value-length checks, one adjacent-line retry);
* the report step at the end of `main` (error percentage and
  throughput rate, each printed only when its numerator is nonzero).

Channels are modelled by the full sequence of values they deliver
before their close is observed; an execution of the multiplexer is an
arbitrary interleaving of receive and close-observation events, one
event per reflect.Select wakeup.
-/

/-- One entry of the reflect.SelectCase slice built by `prepareCases`:
a receive case on an output channel (`isOut = true`) or on an error
channel (`isOut = false`).  `pending` is the sequence of values this
channel still delivers before its closure can be observed (a Go
receive reports closure only once the channel is closed and drained). -/
structure MuxCase where
  isOut : Bool
  pending : List String
deriving DecidableEq, Repr

/-- The state of the `waitForCases` loop: the live case slice, the
`middle` partition index, and the four accumulators initialised at the
top of the function. -/
structure MuxState where
  cases : List MuxCase
  middle : Nat
  succeeded : Nat
  succeededMessages : List String
  failed : Nat
  failedMessages : List String
deriving DecidableEq, Repr

/-- One wakeup of `reflect.Select`: either case `chosen` delivered a
value (`ok = true` in the source), or case `chosen` was observed
closed (`ok = false`). -/
inductive MuxEvent
  | recv (chosen : Nat)
  | close (chosen : Nat)
deriving DecidableEq, Repr

/-- One iteration of the `for len(cases) > 0` loop body of
`waitForCases`.  On a value: append to `succeededMessages` and bump
`succeeded` when `chosen < middle`, otherwise append to
`failedMessages` and bump `failed`.  On a close: remove the case with
`cases = append(cases[:chosen], cases[chosen+1:]...)` and decrement
`middle` exactly when `chosen < middle`.  `none` marks an event that
the channel semantics cannot produce in this state (receive from an
exhausted channel, close of a channel that still has values, or an
out-of-range index). -/
def muxStep (s : MuxState) (e : MuxEvent) : Option MuxState :=
  match e with
  | .recv chosen =>
    match s.cases[chosen]? with
    | some c =>
      match c.pending with
      | v :: rest =>
        if chosen < s.middle then
          some { s with
            cases := s.cases.set chosen ⟨c.isOut, rest⟩,
            succeeded := s.succeeded + 1,
            succeededMessages := s.succeededMessages ++ [v] }
        else
          some { s with
            cases := s.cases.set chosen ⟨c.isOut, rest⟩,
            failed := s.failed + 1,
            failedMessages := s.failedMessages ++ [v] }
      | [] => none
    | none => none
  | .close chosen =>
    match s.cases[chosen]? with
    | some c =>
      if c.pending = [] then
        some { s with
          cases := s.cases.take chosen ++ s.cases.drop (chosen + 1),
          middle := if chosen < s.middle then s.middle - 1 else s.middle }
      else none
    | none => none

/-- Run the `waitForCases` loop over a sequence of select wakeups. -/
def muxRun (s : MuxState) : List MuxEvent → Option MuxState
  | [] => some s
  | e :: tr =>
    match muxStep s e with
    | some s2 => muxRun s2 tr
    | none => none

/-- The case slice built by `prepareCases`: the `concurrency` output
channels at indices `0..C-1`, then the `concurrency` error channels at
indices `C..2C-1`. -/
def prepareCases (outputs errs : List (List String)) : List MuxCase :=
  outputs.map (fun p => ⟨true, p⟩) ++ errs.map (fun p => ⟨false, p⟩)

/-- The state of `waitForCases` on entry (lines 321-325 of main.go):
`middle = concurrency`, both counters zero, both message lists empty. -/
def initMux (concurrency : Nat) (outputs errs : List (List String)) : MuxState :=
  { cases := prepareCases outputs errs
    middle := concurrency
    succeeded := 0
    succeededMessages := []
    failed := 0
    failedMessages := [] }

/-- The per-worker input channel capacity computed by
`prepareChannels`: `tasksPerChannel := 1 + (count-1)/concurrency`
under Go integer division. -/
def tasksPerChannel (count concurrency : Nat) : Nat :=
  1 + (count - 1) / concurrency

/-- The error-percentage report of `main`: printed only when
`failed > 0`, with value `float64(failed) * 100.0 / float64(count)`. -/
def reportError (failed count : Nat) : Option ℚ :=
  if 0 < failed then some ((failed : ℚ) * 100 / (count : ℚ)) else none

/-- The throughput report of `main`: printed only when `succeeded > 0`,
with value `float64(succeeded*1e9) / float64(duration)`. -/
def reportRate (succeeded : Nat) (duration : ℚ) : Option ℚ :=
  if 0 < succeeded then some (((succeeded * 1000000000 : Nat) : ℚ) / duration) else none

example : muxRun (initMux 1 [["a"]] [["e"]])
    [MuxEvent.recv 0, MuxEvent.recv 1, MuxEvent.close 0, MuxEvent.close 0] =
    some ⟨[], 0, 1, ["a"], 1, ["e"]⟩ := by decide

example : tasksPerChannel 10 3 = 4 := by decide

/-- Claim C5: for every `count ≥ concurrency ≥ 1` the input-channel
capacity `1 + (count-1)/concurrency` computed by `prepareChannels` is
the ceiling of `count / concurrency`: it equals the rational ceiling,
equals the usual `(count + concurrency - 1) / concurrency` formula,
bounds `count` from above by `concurrency` full channels, and is the
least natural number that does so. -/
theorem prepareChannels_capacity_ceil (count concurrency : Nat)
    (hc : 1 ≤ concurrency) (hcc : concurrency ≤ count) :
    tasksPerChannel count concurrency = ⌈(count : ℚ) / (concurrency : ℚ)⌉₊ ∧
    tasksPerChannel count concurrency = (count + concurrency - 1) / concurrency ∧
    count ≤ concurrency * tasksPerChannel count concurrency ∧
    (∀ m, count ≤ concurrency * m → tasksPerChannel count concurrency ≤ m) := by
  have hcount : 1 ≤ count := le_trans hc hcc
  obtain ⟨q, hq_def⟩ : ∃ q, (count - 1) / concurrency = q := ⟨_, rfl⟩
  have hdm := Nat.div_add_mod (count - 1) concurrency
  rw [hq_def] at hdm
  have hmlt : (count - 1) % concurrency < concurrency := Nat.mod_lt _ (by omega)
  have htpc : tasksPerChannel count concurrency = q + 1 := by
    simp [tasksPerChannel, hq_def, Nat.add_comm]
  have hub : count ≤ concurrency * (q + 1) := by
    rw [Nat.mul_succ]; omega
  have hlb : concurrency * q ≤ count - 1 := by omega
  have hqpos : (0 : ℚ) < (concurrency : ℚ) := by exact_mod_cast hc
  refine ⟨?_, ?_, ?_, ?_⟩
  · rw [htpc]
    symm
    rw [Nat.ceil_eq_iff (by omega)]
    constructor
    · have h1 : concurrency * q < count := by omega
      have h1q : (concurrency : ℚ) * (q : ℚ) < (count : ℚ) := by exact_mod_cast h1
      rw [lt_div_iff₀ hqpos]
      push_cast
      linarith
    · have h2q : ((count : Nat) : ℚ) ≤ (concurrency : ℚ) * ((q : ℚ) + 1) := by
        exact_mod_cast hub
      rw [div_le_iff₀ hqpos]
      push_cast
      linarith
  · have hsplit : count + concurrency - 1 = (count - 1) + concurrency := by omega
    rw [htpc, hsplit, Nat.add_div_right _ (by omega), hq_def]
  · rw [htpc]; exact hub
  · intro m hm
    rw [htpc]
    by_contra hlt
    push_neg at hlt
    have hm1 : m ≤ q := by omega
    have hmono : concurrency * m ≤ concurrency * q := Nat.mul_le_mul_left _ hm1
    omega

/-- Witness for C5 at `count = 10`, `concurrency = 3`. -/
theorem prepareChannels_capacity_ceil_witness :
    tasksPerChannel 10 3 = ⌈(10 : ℚ) / (3 : ℚ)⌉₊ ∧
    tasksPerChannel 10 3 = (10 + 3 - 1) / 3 ∧
    10 ≤ 3 * tasksPerChannel 10 3 ∧
    (∀ m, 10 ≤ 3 * m → tasksPerChannel 10 3 ≤ m) :=
  prepareChannels_capacity_ceil 10 3 (by decide) (by decide)

/-- Claim C8: the report step of `main` prints no throughput rate when
`succeeded = 0` and no error percentage when `failed = 0`, so neither
zero case forms a quotient at all; when `failed > 0` the printed error
percentage is `failed * 100 / count` over the total population. -/
theorem report_no_division_when_zero (succeeded failed count : Nat) (duration : ℚ) :
    (failed = 0 → reportError failed count = none) ∧
    (succeeded = 0 → reportRate succeeded duration = none) ∧
    (0 < failed → reportError failed count = some ((failed : ℚ) * 100 / (count : ℚ))) := by
  refine ⟨?_, ?_, ?_⟩
  · intro h; simp [reportError, h]
  · intro h; simp [reportRate, h]
  · intro h; simp [reportError, h]

/-- Witness for C8: `failed = 0` and `succeeded = 0` suppress their
reports and a positive `failed` yields the percentage formula. -/
theorem report_no_division_when_zero_witness :
    (reportError 0 10 = none) ∧ (reportRate 0 (5 : ℚ) = none) ∧
    (reportError 3 10 = some ((3 : ℚ) * 100 / (10 : ℚ))) :=
  ⟨(report_no_division_when_zero 1 0 10 5).1 rfl,
   (report_no_division_when_zero 0 1 10 5).2.1 rfl,
   (report_no_division_when_zero 1 3 10 5).2.2 (by decide)⟩

/-! ### List helpers for the shrinking case slice -/

theorem set_append_left {α : Type _} (l1 l2 : List α) (i : Nat) (a : α)
    (h : i < l1.length) : (l1 ++ l2).set i a = l1.set i a ++ l2 := by
  induction l1 generalizing i with
  | nil => simp at h
  | cons x xs ih =>
    cases i with
    | zero => simp
    | succ n =>
      simp only [List.cons_append, List.set_cons_succ]
      rw [ih n (by simpa using h)]

theorem set_append_right {α : Type _} (l1 l2 : List α) (i : Nat) (a : α)
    (h : l1.length ≤ i) : (l1 ++ l2).set i a = l1 ++ l2.set (i - l1.length) a := by
  induction l1 generalizing i with
  | nil => simp
  | cons x xs ih =>
    cases i with
    | zero => simp at h
    | succ n =>
      simp only [List.cons_append, List.set_cons_succ, List.length_cons]
      rw [ih n (by simpa using h)]
      simp [Nat.succ_sub_succ]

theorem removeAt_append_left {α : Type _} (l1 l2 : List α) (i : Nat)
    (h : i < l1.length) :
    (l1 ++ l2).take i ++ (l1 ++ l2).drop (i + 1) =
      (l1.take i ++ l1.drop (i + 1)) ++ l2 := by
  rw [List.take_append_eq_append_take, List.drop_append_eq_append_drop]
  have h1 : i - l1.length = 0 := by omega
  have h2 : i + 1 - l1.length = 0 := by omega
  simp [h1, h2]

theorem removeAt_append_right {α : Type _} (l1 l2 : List α) (i : Nat)
    (h : l1.length ≤ i) :
    (l1 ++ l2).take i ++ (l1 ++ l2).drop (i + 1) =
      l1 ++ (l2.take (i - l1.length) ++ l2.drop (i - l1.length + 1)) := by
  rw [List.take_append_eq_append_take, List.drop_append_eq_append_drop]
  rw [List.take_of_length_le h, List.drop_of_length_le (by omega)]
  have h2 : i + 1 - l1.length = i - l1.length + 1 := by omega
  simp [h2]

theorem length_removeAt {α : Type _} (l : List α) (i : Nat) (h : i < l.length) :
    (l.take i ++ l.drop (i + 1)).length = l.length - 1 := by
  simp only [List.length_append, List.length_take, List.length_drop]
  omega

theorem sum_map_set {α : Type _} (f : α → Nat) (l : List α) (i : Nat) (a : α)
    (h : i < l.length) :
    ((l.set i a).map f).sum + f (l.get ⟨i, h⟩) = (l.map f).sum + f a := by
  induction l generalizing i with
  | nil => simp at h
  | cons x xs ih =>
    cases i with
    | zero => simp [List.get]; omega
    | succ n =>
      simp only [List.set_cons_succ, List.map_cons, List.sum_cons, List.get]
      have := ih n (by simpa using h)
      omega

theorem sum_map_removeAt {α : Type _} (f : α → Nat) (l : List α) (i : Nat)
    (h : i < l.length) :
    ((l.take i ++ l.drop (i + 1)).map f).sum + f (l.get ⟨i, h⟩) = (l.map f).sum := by
  induction l generalizing i with
  | nil => simp at h
  | cons x xs ih =>
    cases i with
    | zero => simp [List.get]; omega
    | succ n =>
      simp only [List.take_succ_cons, List.drop_succ_cons, List.cons_append,
        List.map_cons, List.sum_cons, List.get]
      have := ih n (by simpa using h)
      omega

/-! ### The success/failure partition invariant of waitForCases -/

/-- The case slice is an output block followed by an error block and
`middle` is exactly the length of the output block — the invariant
that makes the `chosen < middle` classification of `waitForCases`
agree with the kind of the selected channel. -/
def Partitioned (s : MuxState) : Prop :=
  ∃ outs errs, s.cases = outs ++ errs ∧ s.middle = outs.length ∧
    (∀ c ∈ outs, c.isOut = true) ∧ (∀ c ∈ errs, c.isOut = false)

/-- Destructor for a successful receive step of `waitForCases`. -/
theorem muxStep_recv_eq {s : MuxState} {chosen : Nat} {s2 : MuxState}
    (h : muxStep s (MuxEvent.recv chosen) = some s2) :
    ∃ c v rest, s.cases[chosen]? = some c ∧ c.pending = v :: rest ∧
      ((chosen < s.middle ∧ s2 = { s with
          cases := s.cases.set chosen ⟨c.isOut, rest⟩,
          succeeded := s.succeeded + 1,
          succeededMessages := s.succeededMessages ++ [v] }) ∨
       (¬ chosen < s.middle ∧ s2 = { s with
          cases := s.cases.set chosen ⟨c.isOut, rest⟩,
          failed := s.failed + 1,
          failedMessages := s.failedMessages ++ [v] })) := by
  simp only [muxStep] at h
  split at h
  · rename_i c heq
    split at h
    · rename_i v rest hpend
      split at h
      · rename_i hlt
        exact ⟨c, v, rest, heq, hpend, Or.inl ⟨hlt, (Option.some_inj.mp h).symm⟩⟩
      · rename_i hlt
        exact ⟨c, v, rest, heq, hpend, Or.inr ⟨hlt, (Option.some_inj.mp h).symm⟩⟩
    · exact absurd h (by simp)
  · exact absurd h (by simp)

/-- Destructor for a close-observation step of `waitForCases`. -/
theorem muxStep_close_eq {s : MuxState} {chosen : Nat} {s2 : MuxState}
    (h : muxStep s (MuxEvent.close chosen) = some s2) :
    ∃ c, s.cases[chosen]? = some c ∧ c.pending = [] ∧
      s2 = { s with
        cases := s.cases.take chosen ++ s.cases.drop (chosen + 1),
        middle := if chosen < s.middle then s.middle - 1 else s.middle } := by
  simp only [muxStep] at h
  split at h
  · rename_i c heq
    split at h
    · rename_i hpend
      exact ⟨c, heq, hpend, (Option.some_inj.mp h).symm⟩
    · exact absurd h (by simp)
  · exact absurd h (by simp)

/-- Under the partition invariant, the `chosen < middle` test of
`waitForCases` is exactly "the selected case is an output channel". -/
theorem Partitioned.isOut_iff {s : MuxState} (hp : Partitioned s) {chosen : Nat}
    {c : MuxCase} (hc : s.cases[chosen]? = some c) :
    (c.isOut = true ↔ chosen < s.middle) := by
  obtain ⟨outs, errs, hcases, hmid, houts, herrs⟩ := hp
  rw [hcases] at hc
  rw [List.getElem?_append] at hc
  by_cases hlt : chosen < outs.length
  · rw [if_pos hlt] at hc
    obtain ⟨hb, hget⟩ := List.getElem?_eq_some.mp hc
    have hmem : c ∈ outs := hget ▸ List.getElem_mem hb
    simp [houts c hmem, hmid, hlt]
  · rw [if_neg hlt] at hc
    obtain ⟨hb, hget⟩ := List.getElem?_eq_some.mp hc
    have hmem : c ∈ errs := hget ▸ List.getElem_mem hb
    simp [herrs c hmem, hmid, hlt]

/-- One step of `waitForCases` preserves the partition invariant. -/
theorem muxStep_partitioned {s : MuxState} {e : MuxEvent} {s2 : MuxState}
    (hp : Partitioned s) (h : muxStep s e = some s2) : Partitioned s2 := by
  obtain ⟨outs, errs, hcases, hmid, houts, herrs⟩ := hp
  cases e with
  | recv chosen =>
    obtain ⟨c, v, rest, hc, hpend, hbranch⟩ := muxStep_recv_eq h
    have hcases2 : s2.cases = s.cases.set chosen ⟨c.isOut, rest⟩ ∧ s2.middle = s.middle := by
      rcases hbranch with ⟨_, rfl⟩ | ⟨_, rfl⟩ <;> exact ⟨rfl, rfl⟩
    obtain ⟨hcs2, hm2⟩ := hcases2
    rw [hcases] at hc hcs2
    by_cases hlt : chosen < outs.length
    · rw [set_append_left _ _ _ _ hlt] at hcs2
      rw [List.getElem?_append, if_pos hlt] at hc
      obtain ⟨hb, hget⟩ := List.getElem?_eq_some.mp hc
      have hmem : c ∈ outs := hget ▸ List.getElem_mem hb
      refine ⟨outs.set chosen ⟨c.isOut, rest⟩, errs, hcs2, ?_, ?_, herrs⟩
      · rw [hm2, hmid, List.length_set]
      · intro x hx
        rcases List.mem_or_eq_of_mem_set hx with hx | rfl
        · exact houts x hx
        · exact houts c hmem
    · push_neg at hlt
      rw [set_append_right _ _ _ _ hlt] at hcs2
      rw [List.getElem?_append_right hlt] at hc
      obtain ⟨hb, hget⟩ := List.getElem?_eq_some.mp hc
      have hmem : c ∈ errs := hget ▸ List.getElem_mem hb
      refine ⟨outs, errs.set (chosen - outs.length) ⟨c.isOut, rest⟩, hcs2, ?_, houts, ?_⟩
      · rw [hm2, hmid]
      · intro x hx
        rcases List.mem_or_eq_of_mem_set hx with hx | rfl
        · exact herrs x hx
        · exact herrs c hmem
  | close chosen =>
    obtain ⟨c, hc, hpend, rfl⟩ := muxStep_close_eq h
    rw [hcases] at hc ⊢
    by_cases hlt : chosen < outs.length
    · rw [removeAt_append_left _ _ _ hlt]
      refine ⟨outs.take chosen ++ outs.drop (chosen + 1), errs, rfl, ?_, ?_, herrs⟩
      · rw [hmid, if_pos hlt]
        exact (length_removeAt outs chosen hlt).symm
      · intro x hx
        rcases List.mem_append.mp hx with hx | hx
        · exact houts x (List.take_subset _ _ hx)
        · exact houts x (List.drop_subset _ _ hx)
    · push_neg at hlt
      rw [removeAt_append_right _ _ _ hlt]
      refine ⟨outs, errs.take (chosen - outs.length) ++ errs.drop (chosen - outs.length + 1),
        rfl, ?_, houts, ?_⟩
      · rw [hmid, if_neg (by omega : ¬ chosen < outs.length)]
      · intro x hx
        rcases List.mem_append.mp hx with hx | hx
        · exact herrs x (List.take_subset _ _ hx)
        · exact herrs x (List.drop_subset _ _ hx)

/-- Invariant lifting along a whole run of the `waitForCases` loop. -/
theorem muxRun_preserve {P : MuxState → Prop}
    (hstep : ∀ s e s2, P s → muxStep s e = some s2 → P s2) :
    ∀ (tr : List MuxEvent) (s s2 : MuxState), P s → muxRun s tr = some s2 → P s2 := by
  intro tr
  induction tr with
  | nil =>
    intro s s2 hP h
    simp only [muxRun, Option.some_inj] at h
    rwa [← h]
  | cons e tr ih =>
    intro s s2 hP h
    rw [muxRun] at h
    split at h
    · rename_i s1 hs1
      exact ih s1 s2 (hstep s e s1 hP hs1) h
    · exact absurd h (by simp)

/-- The state `waitForCases` starts from satisfies the invariant when
the output and error channel lists both have length `concurrency`, as
built by `prepareChannels` / `prepareCases`. -/
theorem initMux_partitioned (C : Nat) (outs errs : List (List String))
    (houts : outs.length = C) :
    Partitioned (initMux C outs errs) := by
  refine ⟨outs.map (fun p => ⟨true, p⟩), errs.map (fun p => ⟨false, p⟩), rfl, ?_, ?_, ?_⟩
  · simp [initMux, houts]
  · intro c hc
    obtain ⟨p, _, rfl⟩ := List.mem_map.mp hc
    rfl
  · intro c hc
    obtain ⟨p, _, rfl⟩ := List.mem_map.mp hc
    rfl

/-- Claim C1: in every state the `waitForCases` loop can reach from
its entry state (any interleaving of value and close events on the 2C
channels), the case slice is still partitioned into the output block
followed by the error block with `middle` the block boundary; a value
received on an output case is appended to the success list with the
`succeeded` counter incremented, a value received on an error case is
appended to the failure list with the `failed` counter incremented,
and a close removes the case from the slice, decrementing `middle`
exactly when the removed case lay in the output half. -/
theorem waitForCases_partition_correct (C : Nat) (outs errs : List (List String))
    (houts : outs.length = C) (herrs : errs.length = C)
    (tr : List MuxEvent) (s : MuxState)
    (hrun : muxRun (initMux C outs errs) tr = some s) :
    Partitioned s ∧
    (∀ chosen c v rest, s.cases[chosen]? = some c → c.pending = v :: rest →
      ((c.isOut = true → muxStep s (MuxEvent.recv chosen) = some { s with
          cases := s.cases.set chosen ⟨true, rest⟩,
          succeeded := s.succeeded + 1,
          succeededMessages := s.succeededMessages ++ [v] }) ∧
       (c.isOut = false → muxStep s (MuxEvent.recv chosen) = some { s with
          cases := s.cases.set chosen ⟨false, rest⟩,
          failed := s.failed + 1,
          failedMessages := s.failedMessages ++ [v] }))) ∧
    (∀ chosen c, s.cases[chosen]? = some c → c.pending = [] →
      muxStep s (MuxEvent.close chosen) = some { s with
        cases := s.cases.take chosen ++ s.cases.drop (chosen + 1),
        middle := if chosen < s.middle then s.middle - 1 else s.middle }) := by
  have hpart : Partitioned s :=
    muxRun_preserve (fun s e s2 hp h => muxStep_partitioned hp h) tr _ s
      (initMux_partitioned C outs errs houts) hrun
  refine ⟨hpart, ?_, ?_⟩
  · intro chosen c v rest hc hpend
    constructor
    · intro hout
      have hlt : chosen < s.middle := (hpart.isOut_iff hc).mp hout
      simp only [muxStep, hc, hpend, if_pos hlt, hout]
    · intro hout
      have hlt : ¬ chosen < s.middle := by
        intro hlt
        have := (hpart.isOut_iff hc).mpr hlt
        rw [hout] at this
        exact Bool.false_ne_true this
      simp only [muxStep, hc, hpend, if_neg hlt, hout]
  · intro chosen c hc hpend
    simp [muxStep, hc, hpend]

/-- Witness for C1 at `C = 1`, one pending output value and one
pending error value, before any event. -/
theorem waitForCases_partition_correct_witness :
    Partitioned (initMux 1 [["a"]] [["e"]]) ∧
    (∀ chosen c v rest,
      (initMux 1 [["a"]] [["e"]]).cases[chosen]? = some c → c.pending = v :: rest →
      ((c.isOut = true →
        muxStep (initMux 1 [["a"]] [["e"]]) (MuxEvent.recv chosen) =
          some { initMux 1 [["a"]] [["e"]] with
            cases := (initMux 1 [["a"]] [["e"]]).cases.set chosen ⟨true, rest⟩,
            succeeded := (initMux 1 [["a"]] [["e"]]).succeeded + 1,
            succeededMessages := (initMux 1 [["a"]] [["e"]]).succeededMessages ++ [v] }) ∧
       (c.isOut = false →
        muxStep (initMux 1 [["a"]] [["e"]]) (MuxEvent.recv chosen) =
          some { initMux 1 [["a"]] [["e"]] with
            cases := (initMux 1 [["a"]] [["e"]]).cases.set chosen ⟨false, rest⟩,
            failed := (initMux 1 [["a"]] [["e"]]).failed + 1,
            failedMessages := (initMux 1 [["a"]] [["e"]]).failedMessages ++ [v] }))) ∧
    (∀ chosen c, (initMux 1 [["a"]] [["e"]]).cases[chosen]? = some c → c.pending = [] →
      muxStep (initMux 1 [["a"]] [["e"]]) (MuxEvent.close chosen) =
        some { initMux 1 [["a"]] [["e"]] with
          cases := (initMux 1 [["a"]] [["e"]]).cases.take chosen ++
            (initMux 1 [["a"]] [["e"]]).cases.drop (chosen + 1),
          middle := if chosen < (initMux 1 [["a"]] [["e"]]).middle then
            (initMux 1 [["a"]] [["e"]]).middle - 1
          else (initMux 1 [["a"]] [["e"]]).middle }) :=
  waitForCases_partition_correct 1 [["a"]] [["e"]] rfl rfl [] _ rfl

/-- Claim C10: on every state reachable by `waitForCases` — in
particular on every return — the `succeeded` counter equals the length
of the success-message list and the `failed` counter the length of the
failure-message list, and the entry state freshly initialises all four
accumulators to zero / empty (the accumulators are locals of
`waitForCases`, so separate invocations share no state — the run is a
pure function of its own arguments). -/
theorem waitForCases_counts_match_lists (C : Nat) (outs errs : List (List String))
    (tr : List MuxEvent) (s : MuxState)
    (hrun : muxRun (initMux C outs errs) tr = some s) :
    s.succeeded = s.succeededMessages.length ∧
    s.failed = s.failedMessages.length ∧
    (initMux C outs errs).succeeded = 0 ∧
    (initMux C outs errs).succeededMessages = [] ∧
    (initMux C outs errs).failed = 0 ∧
    (initMux C outs errs).failedMessages = [] := by
  have hinv : ∀ s0 e s1,
      (s0.succeeded = s0.succeededMessages.length ∧ s0.failed = s0.failedMessages.length) →
      muxStep s0 e = some s1 →
      (s1.succeeded = s1.succeededMessages.length ∧ s1.failed = s1.failedMessages.length) := by
    intro s0 e s1 hP h
    cases e with
    | recv chosen =>
      obtain ⟨c, v, rest, hc, hpend, hbranch⟩ := muxStep_recv_eq h
      rcases hbranch with ⟨_, rfl⟩ | ⟨_, rfl⟩ <;>
        simp [List.length_append, hP.1, hP.2]
    | close chosen =>
      obtain ⟨c, hc, hpend, rfl⟩ := muxStep_close_eq h
      exact hP
  have := muxRun_preserve hinv tr _ s ⟨rfl, rfl⟩ hrun
  exact ⟨this.1, this.2, rfl, rfl, rfl, rfl⟩

/-- Witness for C10 at `C = 1`, a two-event trace. -/
theorem waitForCases_counts_match_lists_witness :
    ((muxRun (initMux 1 [["a"]] [["e"]]) [MuxEvent.recv 0, MuxEvent.recv 1]).getD
        (initMux 0 [] [])).succeeded =
      ((muxRun (initMux 1 [["a"]] [["e"]]) [MuxEvent.recv 0, MuxEvent.recv 1]).getD
        (initMux 0 [] [])).succeededMessages.length ∧
    ((muxRun (initMux 1 [["a"]] [["e"]]) [MuxEvent.recv 0, MuxEvent.recv 1]).getD
        (initMux 0 [] [])).failed =
      ((muxRun (initMux 1 [["a"]] [["e"]]) [MuxEvent.recv 0, MuxEvent.recv 1]).getD
        (initMux 0 [] [])).failedMessages.length ∧
    (initMux 1 [["a"]] [["e"]]).succeeded = 0 ∧
    (initMux 1 [["a"]] [["e"]]).succeededMessages = [] ∧
    (initMux 1 [["a"]] [["e"]]).failed = 0 ∧
    (initMux 1 [["a"]] [["e"]]).failedMessages = [] := by
  have h := waitForCases_counts_match_lists 1 [["a"]] [["e"]]
    [MuxEvent.recv 0, MuxEvent.recv 1]
    ((muxRun (initMux 1 [["a"]] [["e"]]) [MuxEvent.recv 0, MuxEvent.recv 1]).getD
      (initMux 0 [] [])) (by decide)
  exact h

/-- Number of close observations (`ok = false` wakeups) in a trace of
the `waitForCases` loop. -/
def closesIn (tr : List MuxEvent) : Nat :=
  (tr.filter (fun e => match e with | .close _ => true | .recv _ => false)).length

/-- Each close observation removes exactly one case from the slice and
receives remove none: over a whole run, the slice shrinks by exactly
the number of close observations. -/
theorem muxRun_length : ∀ (tr : List MuxEvent) (s s2 : MuxState),
    muxRun s tr = some s2 → s2.cases.length + closesIn tr = s.cases.length := by
  intro tr
  induction tr with
  | nil =>
    intro s s2 h
    simp only [muxRun, Option.some_inj] at h
    rw [← h]
    simp [closesIn]
  | cons e tr ih =>
    intro s s2 h
    rw [muxRun] at h
    split at h
    · rename_i s1 hs1
      have htl := ih s1 s2 h
      cases e with
      | recv chosen =>
        obtain ⟨c, v, rest, hc, hpend, hbranch⟩ := muxStep_recv_eq hs1
        have hlen : s1.cases.length = s.cases.length := by
          rcases hbranch with ⟨_, rfl⟩ | ⟨_, rfl⟩ <;> simp [List.length_set]
        have hcl : closesIn (MuxEvent.recv chosen :: tr) = closesIn tr := by
          simp [closesIn]
        omega
      | close chosen =>
        obtain ⟨c, hc, hpend, rfl⟩ := muxStep_close_eq hs1
        obtain ⟨hb, _⟩ := List.getElem?_eq_some.mp hc
        have hlen : (s.cases.take chosen ++ s.cases.drop (chosen + 1)).length =
            s.cases.length - 1 := length_removeAt _ _ hb
        have hcl : closesIn (MuxEvent.close chosen :: tr) = closesIn tr + 1 := by
          simp [closesIn]
        rw [hcl]
        dsimp only at htl
        omega
    · exact absurd h (by simp)

/-- When every remaining case has no pending value, repeatedly
observing the close of case 0 drains the whole slice without touching
any accumulator. -/
theorem muxRun_all_empty : ∀ (cs : List MuxCase) (s : MuxState), s.cases = cs →
    (∀ c ∈ cs, c.pending = []) →
    muxRun s (List.replicate cs.length (MuxEvent.close 0)) =
      some { s with cases := [], middle := s.middle - cs.length } := by
  intro cs
  induction cs with
  | nil =>
    intro s hcs h
    cases s
    simp_all [muxRun]
  | cons c cs ih =>
    intro s hcs h
    have hcp : c.pending = [] := h c (by simp)
    have hmid : (if 0 < s.middle then s.middle - 1 else s.middle) = s.middle - 1 := by
      split <;> omega
    have hstep : muxStep s (MuxEvent.close 0) =
        some { s with cases := cs, middle := s.middle - 1 } := by
      simp [muxStep, hcs, hcp, hmid]
    have hrun1 : muxRun s (MuxEvent.close 0 :: List.replicate cs.length (MuxEvent.close 0)) =
        muxRun { s with cases := cs, middle := s.middle - 1 }
          (List.replicate cs.length (MuxEvent.close 0)) := by
      rw [muxRun, hstep]
    rw [List.length_cons, List.replicate_succ, hrun1,
      ih { s with cases := cs, middle := s.middle - 1 } rfl
        (fun x hx => h x (List.mem_cons_of_mem _ hx))]
    dsimp only
    rw [show s.middle - 1 - cs.length = s.middle - (cs.length + 1) from by omega]

/-- The case slice of the entry state has one case per channel:
`2 * concurrency` of them. -/
theorem initMux_length (C : Nat) (outs errs : List (List String))
    (houts : outs.length = C) (herrs : errs.length = C) :
    (initMux C outs errs).cases.length = 2 * C := by
  simp [initMux, prepareCases, houts, herrs]
  omega

/-- Claim C3: a run of the `waitForCases` loop has emptied its case
slice — the loop's only exit condition — exactly when it has observed
all `2 * concurrency` channel closes; in particular it cannot return
while a channel remains open (fewer closes observed), and when every
channel closes having produced zero values the run completes with
`succeeded = 0` and `failed = 0` rather than hanging. -/
theorem waitForCases_terminates_iff_all_closed (C : Nat)
    (outs errs : List (List String))
    (houts : outs.length = C) (herrs : errs.length = C) :
    (∀ tr s, muxRun (initMux C outs errs) tr = some s →
      (s.cases = [] ↔ closesIn tr = 2 * C)) ∧
    ((∀ p ∈ outs, p = []) → (∀ p ∈ errs, p = []) →
      ∃ s, muxRun (initMux C outs errs)
          (List.replicate (2 * C) (MuxEvent.close 0)) = some s ∧
        s.cases = [] ∧ s.succeeded = 0 ∧ s.failed = 0) := by
  constructor
  · intro tr s hrun
    have hlen := muxRun_length tr _ s hrun
    rw [initMux_length C outs errs houts herrs] at hlen
    constructor
    · intro hnil
      rw [hnil] at hlen
      simpa using hlen
    · intro hcl
      rw [hcl] at hlen
      have : s.cases.length = 0 := by omega
      exact List.length_eq_zero.mp this
  · intro houts0 herrs0
    have hpend : ∀ c ∈ (initMux C outs errs).cases, c.pending = [] := by
      intro c hc
      simp only [initMux, prepareCases] at hc
      rcases List.mem_append.mp hc with hc | hc
      · obtain ⟨p, hp, rfl⟩ := List.mem_map.mp hc
        exact houts0 p hp
      · obtain ⟨p, hp, rfl⟩ := List.mem_map.mp hc
        exact herrs0 p hp
    have h2C : (2 : Nat) * C = (initMux C outs errs).cases.length :=
      (initMux_length C outs errs houts herrs).symm
    rw [h2C]
    refine ⟨_, muxRun_all_empty _ _ rfl hpend, rfl, rfl, rfl⟩

/-- Witness for C3 at `C = 1` with empty channels. -/
theorem waitForCases_terminates_iff_all_closed_witness :
    (∀ tr s, muxRun (initMux 1 [[]] [[]]) tr = some s →
      (s.cases = [] ↔ closesIn tr = 2 * 1)) ∧
    ((∀ p ∈ [([] : List String)], p = []) → (∀ p ∈ [([] : List String)], p = []) →
      ∃ s, muxRun (initMux 1 [[]] [[]])
          (List.replicate (2 * 1) (MuxEvent.close 0)) = some s ∧
        s.cases = [] ∧ s.succeeded = 0 ∧ s.failed = 0) :=
  waitForCases_terminates_iff_all_closed 1 [[]] [[]] rfl rfl

/-! ### Round-robin dispatch (createParallel / searchParallel) -/

/-- The dispatch loop `for i, request := range requests {
inputs[i%concurrency] <- request }`: the list of (item, worker) send
pairs, in program order. -/
def dispatchSends (T C : Nat) : List (Nat × Nat) :=
  (List.range T).map (fun i => (i, i % C))

/-- The close loop `for i := 0; i < concurrency; i++ {
close(inputs[i]) }`: the list of input channels closed, in order. -/
def inputCloses (C : Nat) : List Nat :=
  List.range C

/-- The items worker `w` receives on its input channel: the first
components of the dispatch sends addressed to `w`. -/
def workerItems (T C w : Nat) : List Nat :=
  ((dispatchSends T C).filter (fun p => p.2 = w)).map Prod.fst

theorem workerItems_eq (T C w : Nat) :
    workerItems T C w = (List.range T).filter (fun i => i % C = w) := by
  unfold workerItems dispatchSends
  rw [List.filter_map, List.map_map]
  have h1 : (Prod.fst ∘ fun i : Nat => (i, i % C)) = id := rfl
  rw [h1, List.map_id]
  rfl

theorem range_filter_eq_nil (T i : Nat) (h : T ≤ i) :
    (List.range T).filter (fun j => j = i) = [] := by
  induction T with
  | zero => rfl
  | succ n ih =>
    rw [List.range_succ, List.filter_append, ih (by omega)]
    simp
    omega

theorem range_filter_eq_single (T i : Nat) (h : i < T) :
    (List.range T).filter (fun j => j = i) = [i] := by
  induction T with
  | zero => omega
  | succ n ih =>
    rw [List.range_succ, List.filter_append]
    by_cases hi : i < n
    · rw [ih hi]
      have hn : List.filter (fun j => decide (j = i)) [n] = [] := by
        simp
        omega
      rw [hn]
      rfl
    · have hin : i = n := by omega
      subst hin
      rw [range_filter_eq_nil i i le_rfl]
      simp

theorem flatMap_if_not_mem (T n : Nat) (xs : List Nat) (h : n ∉ xs) :
    xs.flatMap (fun w => if n = w then [T] else []) = [] := by
  induction xs with
  | nil => rfl
  | cons x xs ih =>
    rw [List.flatMap_cons]
    rw [List.mem_cons, not_or] at h
    rw [if_neg h.1, ih h.2]
    rfl

theorem flatMap_if_single (T : Nat) : ∀ (l : List Nat), l.Nodup → ∀ n ∈ l,
    l.flatMap (fun w => if n = w then [T] else []) = [T] := by
  intro l
  induction l with
  | nil => simp
  | cons x xs ih =>
    intro hnd n hn
    rw [List.flatMap_cons]
    rcases List.mem_cons.mp hn with rfl | hn
    · rw [if_pos rfl, flatMap_if_not_mem T n xs (List.nodup_cons.mp hnd).1]
      rfl
    · have hne : n ≠ x := by
        intro hnx
        exact (List.nodup_cons.mp hnd).1 (hnx ▸ hn)
      rw [if_neg hne, ih (List.nodup_cons.mp hnd).2 n hn]
      rfl


/-- The multiset of items received by all `C` workers combined equals
the multiset of the `T` dispatched items. -/
theorem dispatch_perm (T C : Nat) (hC : 0 < C) :
    ((List.range C).flatMap (workerItems T C)).Perm (List.range T) := by
  rw [show workerItems T C = fun w => (List.range T).filter (fun i => i % C = w) from
    funext (workerItems_eq T C)]
  induction T with
  | zero =>
    simp
  | succ n ihT =>
    have hsplit : (List.range C).flatMap
        (fun w => (List.range (n + 1)).filter (fun i => i % C = w)) =
        (List.range C).flatMap
          (fun w => (List.range n).filter (fun i => i % C = w) ++
            List.filter (fun i => decide (i % C = w)) [n]) := by
      simp only [List.range_succ, List.filter_append]
    rw [hsplit]
    refine ((List.flatMap_append_perm (List.range C) _ _).symm).trans ?_
    rw [List.range_succ]
    refine List.Perm.append ihT ?_
    have hsingle : ((List.range C).flatMap
        (fun w => List.filter (fun i => decide (i % C = w)) [n])) =
        (List.range C).flatMap (fun w => if n % C = w then [n] else []) := by
      have hfun : (fun w => List.filter (fun i => decide (i % C = w)) [n]) =
          (fun w => if n % C = w then [n] else []) := by
        funext w
        by_cases hw : n % C = w <;> simp [hw]
      rw [hfun]
    rw [hsingle,
      flatMap_if_single n (List.range C) (List.nodup_range C)
        (n % C) (List.mem_range.mpr (Nat.mod_lt _ hC))]

/-- The close loop closes channel `w` exactly once for every worker
`w < C`. -/
theorem count_inputCloses (C w : Nat) (h : w < C) :
    (inputCloses C).count w = 1 := by
  unfold inputCloses
  induction C with
  | zero => omega
  | succ n ih =>
    rw [List.range_succ, List.count_append]
    by_cases hw : w < n
    · rw [ih hw]
      have hs : List.count w [n] = 0 := by
        simp [List.count_singleton]
        omega
      rw [hs]
    · have hwn : w = n := by omega
      subst hwn
      have h0 : (List.range w).count w = 0 :=
        List.count_eq_zero.mpr (by simp)
      rw [h0]
      simp

/-- The send addressed to item `i` is unique and goes to worker
`i % C`. -/
theorem dispatchSends_filter_item (T C i : Nat) (h : i < T) :
    (dispatchSends T C).filter (fun p => p.1 = i) = [(i, i % C)] := by
  unfold dispatchSends
  rw [List.filter_map]
  have hcomp : ((fun p : Nat × Nat => decide (p.1 = i)) ∘ fun j : Nat => (j, j % C)) =
      (fun j : Nat => decide (j = i)) := rfl
  rw [hcomp, range_filter_eq_single T i h]
  rfl

/-- Claim C4: round-robin dispatch is exhaustive and exactly-once.
For every item `i < T` the dispatch loop contains exactly one send of
item `i`, addressed to worker `i % C` (a valid worker index); the
multiset of items received by all `C` workers combined is a
permutation of the `T` dispatched items; and after the last item the
close loop closes each of the `C` input channels exactly once. -/
theorem dispatch_round_robin (T C : Nat) (hC : 0 < C) :
    (∀ i, i < T →
      (dispatchSends T C).filter (fun p => p.1 = i) = [(i, i % C)] ∧ i % C < C) ∧
    ((List.range C).flatMap (workerItems T C)).Perm (List.range T) ∧
    (∀ w, w < C → (inputCloses C).count w = 1) :=
  ⟨fun i hi => ⟨dispatchSends_filter_item T C i hi, Nat.mod_lt _ hC⟩,
   dispatch_perm T C hC,
   fun w hw => count_inputCloses C w hw⟩

/-- Witness for C4 at `T = 5`, `C = 2`. -/
theorem dispatch_round_robin_witness :
    (∀ i, i < 5 →
      (dispatchSends 5 2).filter (fun p => p.1 = i) = [(i, i % 2)] ∧ i % 2 < 2) ∧
    ((List.range 2).flatMap (workerItems 5 2)).Perm (List.range 5) ∧
    (∀ w, w < 2 → (inputCloses 2).count w = 1) :=
  dispatch_round_robin 5 2 (by decide)

/-! ### Conservation of outcomes through waitForCases -/

/-- Total number of values still pending on output cases. -/
def pendingOut (cs : List MuxCase) : Nat :=
  (cs.map (fun c => if c.isOut then c.pending.length else 0)).sum

/-- Total number of values still pending on error cases. -/
def pendingErr (cs : List MuxCase) : Nat :=
  (cs.map (fun c => if c.isOut then 0 else c.pending.length)).sum

theorem pendingOut_set (cs : List MuxCase) (i : Nat) (c2 : MuxCase)
    (h : i < cs.length) :
    pendingOut (cs.set i c2) +
      (if (cs.get ⟨i, h⟩).isOut then (cs.get ⟨i, h⟩).pending.length else 0) =
    pendingOut cs + (if c2.isOut then c2.pending.length else 0) := by
  unfold pendingOut
  exact sum_map_set _ cs i c2 h

theorem pendingErr_set (cs : List MuxCase) (i : Nat) (c2 : MuxCase)
    (h : i < cs.length) :
    pendingErr (cs.set i c2) +
      (if (cs.get ⟨i, h⟩).isOut then 0 else (cs.get ⟨i, h⟩).pending.length) =
    pendingErr cs + (if c2.isOut then 0 else c2.pending.length) := by
  unfold pendingErr
  exact sum_map_set _ cs i c2 h

theorem pendingOut_removeAt (cs : List MuxCase) (i : Nat) (h : i < cs.length) :
    pendingOut (cs.take i ++ cs.drop (i + 1)) +
      (if (cs.get ⟨i, h⟩).isOut then (cs.get ⟨i, h⟩).pending.length else 0) =
    pendingOut cs := by
  unfold pendingOut
  exact sum_map_removeAt _ cs i h

theorem pendingErr_removeAt (cs : List MuxCase) (i : Nat) (h : i < cs.length) :
    pendingErr (cs.take i ++ cs.drop (i + 1)) +
      (if (cs.get ⟨i, h⟩).isOut then 0 else (cs.get ⟨i, h⟩).pending.length) =
    pendingErr cs := by
  unfold pendingErr
  exact sum_map_removeAt _ cs i h

/-- One step of `waitForCases` conserves `succeeded + pending output
values` and `failed + pending error values`. -/
theorem muxStep_conserves {s : MuxState} {e : MuxEvent} {s2 : MuxState}
    (hp : Partitioned s) (h : muxStep s e = some s2) :
    s2.succeeded + pendingOut s2.cases = s.succeeded + pendingOut s.cases ∧
    s2.failed + pendingErr s2.cases = s.failed + pendingErr s.cases := by
  cases e with
  | recv chosen =>
    obtain ⟨c, v, rest, hc, hpend, hbranch⟩ := muxStep_recv_eq h
    obtain ⟨hb, hget⟩ := List.getElem?_eq_some.mp hc
    have hiff := hp.isOut_iff hc
    have hOut := pendingOut_set s.cases chosen ⟨c.isOut, rest⟩ hb
    have hErr := pendingErr_set s.cases chosen ⟨c.isOut, rest⟩ hb
    rw [show s.cases.get ⟨chosen, hb⟩ = c from hget] at hOut hErr
    dsimp only at hOut hErr
    rcases hbranch with ⟨hlt, rfl⟩ | ⟨hlt, rfl⟩
    · have hout : c.isOut = true := hiff.mpr hlt
      rw [hout, hpend] at hOut hErr
      simp only [List.length_cons, if_true] at hOut hErr
      constructor
      · dsimp only
        rw [hout]
        omega
      · dsimp only
        rw [hout]
        omega
    · have hout : c.isOut = false := by
        cases hco : c.isOut
        · rfl
        · exact absurd (hiff.mp hco) hlt
      rw [hout, hpend] at hOut hErr
      simp only [List.length_cons, Bool.false_eq_true, if_false] at hOut hErr
      constructor
      · dsimp only
        rw [hout]
        omega
      · dsimp only
        rw [hout]
        omega
  | close chosen =>
    obtain ⟨c, hc, hpend, rfl⟩ := muxStep_close_eq h
    obtain ⟨hb, hget⟩ := List.getElem?_eq_some.mp hc
    have hOut := pendingOut_removeAt s.cases chosen hb
    have hErr := pendingErr_removeAt s.cases chosen hb
    rw [show s.cases.get ⟨chosen, hb⟩ = c from hget, hpend] at hOut hErr
    have hzero : (if c.isOut then List.length ([] : List String) else 0) = 0 := by
      split <;> rfl
    have hzero2 : (if c.isOut then 0 else List.length ([] : List String)) = 0 := by
      split <;> rfl
    rw [hzero] at hOut
    rw [hzero2] at hErr
    constructor
    · dsimp only
      omega
    · dsimp only
      omega

/-- The values worker `w` sends on its output channel: `createAsync` /
`searchAsync` push one success payload per item whose remote call
returns without error (`outputs <- response.Id`, resp. the formatted
hit count). -/
def runOutputs (run : Nat → Except String String) (items : List Nat) : List String :=
  items.filterMap (fun i => match run i with
    | .ok payload => some payload
    | .error _ => none)

/-- The values worker `w` sends on its error channel: one stringified
error per item whose remote call fails (`errors <- err.Error()`). -/
def runErrors (run : Nat → Except String String) (items : List Nat) : List String :=
  items.filterMap (fun i => match run i with
    | .ok _ => none
    | .error e => some e)

/-- Each item produces exactly one outcome: a worker's output and
error emissions together number its received items. -/
theorem length_runOutputs_add_runErrors (run : Nat → Except String String)
    (items : List Nat) :
    (runOutputs run items).length + (runErrors run items).length = items.length := by
  induction items with
  | nil => rfl
  | cons i is ih =>
    cases hr : run i <;>
      simp [runOutputs, runErrors, List.filterMap_cons, hr] <;>
      simp [runOutputs, runErrors] at ih <;>
      omega

theorem pendingOut_prepareCases (outs errs : List (List String)) :
    pendingOut (prepareCases outs errs) = (outs.map List.length).sum := by
  unfold pendingOut prepareCases
  rw [List.map_append, List.sum_append, List.map_map, List.map_map]
  have h1 : ((fun c : MuxCase => if c.isOut then c.pending.length else 0) ∘
      fun p : List String => (⟨true, p⟩ : MuxCase)) = List.length := by
    funext p
    rfl
  have h2 : ((fun c : MuxCase => if c.isOut then c.pending.length else 0) ∘
      fun p : List String => (⟨false, p⟩ : MuxCase)) = fun _ => 0 := by
    funext p
    rfl
  rw [h1, h2]
  have hz : (errs.map (fun _ => (0 : Nat))).sum = 0 := by
    induction errs with
    | nil => rfl
    | cons p ps ih => simp [ih]
  rw [hz]
  omega

theorem pendingErr_prepareCases (outs errs : List (List String)) :
    pendingErr (prepareCases outs errs) = (errs.map List.length).sum := by
  unfold pendingErr prepareCases
  rw [List.map_append, List.sum_append, List.map_map, List.map_map]
  have h1 : ((fun c : MuxCase => if c.isOut then 0 else c.pending.length) ∘
      fun p : List String => (⟨true, p⟩ : MuxCase)) = fun _ => 0 := by
    funext p
    rfl
  have h2 : ((fun c : MuxCase => if c.isOut then 0 else c.pending.length) ∘
      fun p : List String => (⟨false, p⟩ : MuxCase)) = List.length := by
    funext p
    rfl
  rw [h1, h2]
  have hz : (outs.map (fun _ => (0 : Nat))).sum = 0 := by
    induction outs with
    | nil => rfl
    | cons p ps ih => simp [ih]
  rw [hz]
  omega

/-- Claim C2: for `1 ≤ C ≤ T`, dispatching the `T` items round-robin
to the `C` workers (`workerItems`), letting each worker emit exactly
one outcome per item (`runOutputs` / `runErrors`, split by the result
of the remote call), and draining everything through `waitForCases`
until its case slice is empty yields `succeeded + failed = T`. -/
theorem dispatch_collect_total (T C : Nat) (hC : 1 ≤ C) (hCT : C ≤ T)
    (run : Nat → Except String String) (tr : List MuxEvent) (s : MuxState)
    (hrun : muxRun (initMux C
        ((List.range C).map (fun w => runOutputs run (workerItems T C w)))
        ((List.range C).map (fun w => runErrors run (workerItems T C w)))) tr = some s)
    (hdone : s.cases = []) :
    s.succeeded + s.failed = T := by
  have houtsLen :
      ((List.range C).map (fun w => runOutputs run (workerItems T C w))).length = C := by
    simp
  have hstep : ∀ s0 e s1,
      (Partitioned s0 ∧
        s0.succeeded + pendingOut s0.cases =
          pendingOut (initMux C
            ((List.range C).map (fun w => runOutputs run (workerItems T C w)))
            ((List.range C).map (fun w => runErrors run (workerItems T C w)))).cases ∧
        s0.failed + pendingErr s0.cases =
          pendingErr (initMux C
            ((List.range C).map (fun w => runOutputs run (workerItems T C w)))
            ((List.range C).map (fun w => runErrors run (workerItems T C w)))).cases) →
      muxStep s0 e = some s1 →
      (Partitioned s1 ∧
        s1.succeeded + pendingOut s1.cases =
          pendingOut (initMux C
            ((List.range C).map (fun w => runOutputs run (workerItems T C w)))
            ((List.range C).map (fun w => runErrors run (workerItems T C w)))).cases ∧
        s1.failed + pendingErr s1.cases =
          pendingErr (initMux C
            ((List.range C).map (fun w => runOutputs run (workerItems T C w)))
            ((List.range C).map (fun w => runErrors run (workerItems T C w)))).cases) := by
    intro s0 e s1 hP h
    refine ⟨muxStep_partitioned hP.1 h, ?_, ?_⟩
    · rw [← hP.2.1]
      exact (muxStep_conserves hP.1 h).1
    · rw [← hP.2.2]
      exact (muxStep_conserves hP.1 h).2
  have hfinal := muxRun_preserve hstep tr _ s
    ⟨initMux_partitioned _ _ _ houtsLen, by simp [initMux], by simp [initMux]⟩ hrun
  obtain ⟨hpart, hsucc, hfail⟩ := hfinal
  rw [hdone] at hsucc hfail
  have hsucc2 : s.succeeded =
      pendingOut (prepareCases
        ((List.range C).map (fun w => runOutputs run (workerItems T C w)))
        ((List.range C).map (fun w => runErrors run (workerItems T C w)))) := by
    simpa [pendingOut] using hsucc
  have hfail2 : s.failed =
      pendingErr (prepareCases
        ((List.range C).map (fun w => runOutputs run (workerItems T C w)))
        ((List.range C).map (fun w => runErrors run (workerItems T C w)))) := by
    simpa [pendingErr] using hfail
  rw [hsucc2, hfail2, pendingOut_prepareCases, pendingErr_prepareCases]
  have key : ∀ (ws : List Nat),
      (((ws.map (fun w => runOutputs run (workerItems T C w))).map List.length).sum +
       ((ws.map (fun w => runErrors run (workerItems T C w))).map List.length).sum) =
      (ws.map (fun w => (workerItems T C w).length)).sum := by
    intro ws
    induction ws with
    | nil => rfl
    | cons w ws ih =>
      simp only [List.map_cons, List.sum_cons]
      have hw := length_runOutputs_add_runErrors run (workerItems T C w)
      omega
  rw [key (List.range C)]
  have hperm := (dispatch_perm T C (by omega)).length_eq
  rw [List.length_flatMap, List.length_range] at hperm
  have hco : List.map (List.length ∘ workerItems T C) (List.range C) =
      (List.range C).map (fun w => (workerItems T C w).length) := rfl
  rw [hco] at hperm
  exact hperm

/-- Witness for C2 at `T = 2`, `C = 1`, an always-succeeding worker
and a complete four-event trace. -/
theorem dispatch_collect_total_witness :
    (⟨[], 0, 2, ["x", "x"], 0, []⟩ : MuxState).succeeded +
      (⟨[], 0, 2, ["x", "x"], 0, []⟩ : MuxState).failed = 2 :=
  dispatch_collect_total 2 1 (by decide) (by decide) (fun _ => Except.ok "x")
    [MuxEvent.recv 0, MuxEvent.recv 0, MuxEvent.close 0, MuxEvent.close 0]
    ⟨[], 0, 2, ["x", "x"], 0, []⟩ (by decide) rfl

/-! ### The workers createAsync / searchAsync -/

/-- The runtime type of a dispatched job: the request value sent on a
worker's input channel is a `*elastic.IndexService` (create mode) or a
`*elastic.SearchService` (search mode). -/
inductive JobKind
  | indexService
  | searchService
deriving DecidableEq, Repr

/-- A job received on a worker's input channel: its runtime type
together with the result its `request.Do()` call would return — a
success payload (assigned id / formatted hit count) or the stringified
error. -/
structure Job where
  kind : JobKind
  resp : Except String String
deriving Repr

/-- The observable actions of one worker, in program order. -/
inductive WorkerAction
  | recvItem
  | sendOut (payload : String)
  | sendErr (msg : String)
  | recvClosed
  | closeErrors
  | closeOutputs
deriving DecidableEq, Repr

/-- The outcome a worker pushes for one job: `outputs <- payload` on
success, `errors <- err.Error()` on failure. -/
def processJob (j : Job) : WorkerAction :=
  match j.resp with
  | .ok payload => WorkerAction.sendOut payload
  | .error msg => WorkerAction.sendErr msg

/-- The worker loop of `createAsync` / `searchAsync`, parametrized by
the expected request type of the mode.  Returns the action trace and a
panic flag.  On `moreJob = false` the loop breaks and the deferred
closes run (LIFO: `close(errors)` then `close(outputs)`).  On a failed
type assertion the worker panics: no outcome is pushed for the
offending job, the remaining input is never read, and the deferred
closes still run during unwinding. -/
def workerRun (expected : JobKind) : List Job → (List WorkerAction × Bool)
  | [] => ([WorkerAction.recvClosed, WorkerAction.closeErrors,
      WorkerAction.closeOutputs], false)
  | j :: rest =>
    if j.kind = expected then
      let r := workerRun expected rest
      (WorkerAction.recvItem :: processJob j :: r.1, r.2)
    else
      ([WorkerAction.recvItem, WorkerAction.closeErrors,
        WorkerAction.closeOutputs], true)

/-- On an input stream of the expected request type, the worker
processes every item in order and then — only after observing
end-of-input — runs its two deferred closes. -/
theorem workerRun_all_expected (expected : JobKind) (jobs : List Job)
    (hjobs : ∀ j ∈ jobs, j.kind = expected) :
    workerRun expected jobs =
      (jobs.flatMap (fun j => [WorkerAction.recvItem, processJob j]) ++
        [WorkerAction.recvClosed, WorkerAction.closeErrors,
          WorkerAction.closeOutputs], false) := by
  induction jobs with
  | nil => rfl
  | cons j js ih =>
    have hk : j.kind = expected := hjobs j (List.mem_cons_self j js)
    simp [workerRun, hk, ih (fun x hx => hjobs x (List.mem_cons_of_mem _ hx)),
      List.flatMap_cons]

theorem processJob_ne_closeOutputs (j : Job) :
    processJob j ≠ WorkerAction.closeOutputs := by
  unfold processJob
  cases j.resp <;> simp

theorem processJob_ne_closeErrors (j : Job) :
    processJob j ≠ WorkerAction.closeErrors := by
  unfold processJob
  cases j.resp <;> simp

theorem processJob_ne_recvClosed (j : Job) :
    processJob j ≠ WorkerAction.recvClosed := by
  unfold processJob
  cases j.resp <;> simp

theorem count_processing_body (jobs : List Job) (a : WorkerAction)
    (ha : ∀ j : Job, processJob j ≠ a) (hra : WorkerAction.recvItem ≠ a) :
    (jobs.flatMap (fun j => [WorkerAction.recvItem, processJob j])).count a = 0 := by
  induction jobs with
  | nil => rfl
  | cons j js ih =>
    rw [List.flatMap_cons, List.count_append, ih]
    simp [List.count_cons, ha j, hra]

/-- Claim C7: a worker whose input carries only the expected request
type — which is what `createParallel` / `searchParallel` dispatch,
their `requests` slices being typed `[]*elastic.IndexService` /
`[]*elastic.SearchService` — closes its output channel and its error
channel exactly once each, and only after observing end-of-input on
its own input channel: its trace is the per-item processing body
(which contains no close and no end-of-input marker) followed by
`recvClosed` and then the two deferred closes. -/
theorem worker_closes_once_after_input (expected : JobKind) (jobs : List Job)
    (hjobs : ∀ j ∈ jobs, j.kind = expected) :
    workerRun expected jobs =
      (jobs.flatMap (fun j => [WorkerAction.recvItem, processJob j]) ++
        [WorkerAction.recvClosed, WorkerAction.closeErrors,
          WorkerAction.closeOutputs], false) ∧
    (jobs.flatMap (fun j => [WorkerAction.recvItem, processJob j])).count
      WorkerAction.closeOutputs = 0 ∧
    (jobs.flatMap (fun j => [WorkerAction.recvItem, processJob j])).count
      WorkerAction.closeErrors = 0 ∧
    (jobs.flatMap (fun j => [WorkerAction.recvItem, processJob j])).count
      WorkerAction.recvClosed = 0 ∧
    (workerRun expected jobs).1.count WorkerAction.closeOutputs = 1 ∧
    (workerRun expected jobs).1.count WorkerAction.closeErrors = 1 := by
  have hmain := workerRun_all_expected expected jobs hjobs
  have h1 := count_processing_body jobs WorkerAction.closeOutputs
    processJob_ne_closeOutputs (by simp)
  have h2 := count_processing_body jobs WorkerAction.closeErrors
    processJob_ne_closeErrors (by simp)
  have h3 := count_processing_body jobs WorkerAction.recvClosed
    processJob_ne_recvClosed (by simp)
  refine ⟨hmain, h1, h2, h3, ?_, ?_⟩
  · rw [hmain]
    dsimp only
    rw [List.count_append, h1]
    rfl
  · rw [hmain]
    dsimp only
    rw [List.count_append, h2]
    rfl

/-- Witness for C7: one well-typed job for a create worker. -/
theorem worker_closes_once_after_input_witness :
    workerRun JobKind.indexService [⟨JobKind.indexService, Except.ok "id1"⟩] =
      (([⟨JobKind.indexService, Except.ok "id1"⟩] : List Job).flatMap
          (fun j => [WorkerAction.recvItem, processJob j]) ++
        [WorkerAction.recvClosed, WorkerAction.closeErrors,
          WorkerAction.closeOutputs], false) ∧
    (([⟨JobKind.indexService, Except.ok "id1"⟩] : List Job).flatMap
        (fun j => [WorkerAction.recvItem, processJob j])).count
      WorkerAction.closeOutputs = 0 ∧
    (([⟨JobKind.indexService, Except.ok "id1"⟩] : List Job).flatMap
        (fun j => [WorkerAction.recvItem, processJob j])).count
      WorkerAction.closeErrors = 0 ∧
    (([⟨JobKind.indexService, Except.ok "id1"⟩] : List Job).flatMap
        (fun j => [WorkerAction.recvItem, processJob j])).count
      WorkerAction.recvClosed = 0 ∧
    (workerRun JobKind.indexService
      [⟨JobKind.indexService, Except.ok "id1"⟩]).1.count
        WorkerAction.closeOutputs = 1 ∧
    (workerRun JobKind.indexService
      [⟨JobKind.indexService, Except.ok "id1"⟩]).1.count
        WorkerAction.closeErrors = 1 :=
  worker_closes_once_after_input JobKind.indexService
    [⟨JobKind.indexService, Except.ok "id1"⟩]
    (by intro j hj; rw [List.mem_singleton.mp hj])

/-- Claim C9: if a worker receives a job whose runtime type is not the
expected request type of its mode, it halts with a panic at that job:
the bad job yields no outcome (neither a success nor a failure is
pushed) and the rest of the input is never processed — while a
dispatcher that only sends the expected type (as `createParallel` and
`searchParallel` do) makes the panic branch unreachable. -/
theorem worker_panics_on_wrong_type (expected : JobKind) (pre : List Job)
    (bad : Job) (post : List Job)
    (hpre : ∀ j ∈ pre, j.kind = expected) (hbad : bad.kind ≠ expected) :
    workerRun expected (pre ++ bad :: post) =
      (pre.flatMap (fun j => [WorkerAction.recvItem, processJob j]) ++
        [WorkerAction.recvItem, WorkerAction.closeErrors,
          WorkerAction.closeOutputs], true) ∧
    (∀ jobs : List Job, (∀ j ∈ jobs, j.kind = expected) →
      (workerRun expected jobs).2 = false) := by
  constructor
  · induction pre with
    | nil =>
      simp [workerRun, hbad]
    | cons j pre ih =>
      have hk : j.kind = expected := hpre j (List.mem_cons_self j pre)
      have ihx := ih (fun x hx => hpre x (List.mem_cons_of_mem _ hx))
      rw [List.cons_append]
      simp [workerRun, hk, ihx, List.flatMap_cons]
  · intro jobs hj
    rw [workerRun_all_expected expected jobs hj]

/-- Witness for C9: a search-typed job reaching a create worker. -/
theorem worker_panics_on_wrong_type_witness :
    workerRun JobKind.indexService
        ([] ++ (⟨JobKind.searchService, Except.ok "1"⟩ : Job) :: []) =
      (([] : List Job).flatMap (fun j => [WorkerAction.recvItem, processJob j]) ++
        [WorkerAction.recvItem, WorkerAction.closeErrors,
          WorkerAction.closeOutputs], true) ∧
    (∀ jobs : List Job, (∀ j ∈ jobs, j.kind = JobKind.indexService) →
      (workerRun JobKind.indexService jobs).2 = false) :=
  worker_panics_on_wrong_type JobKind.indexService []
    ⟨JobKind.searchService, Except.ok "1"⟩ [] (by intro j hj; cases hj) (by decide)

/-! ### The record-log line sampler getLine -/

/-- Split off everything before the first occurrence of `sep`;
`none` when `sep` does not occur. -/
def splitFirst (sep : Char) : List Char → Option (List Char × List Char)
  | [] => none
  | c :: rest =>
    if c = sep then some ([], rest)
    else
      match splitFirst sep rest with
      | some (a, b) => some (c :: a, b)
      | none => none

/-- Go `strings.SplitN(line, sep, n)`: at most `n` parts, the last
part carrying every remaining separator. -/
def splitN (sep : Char) : Nat → List Char → List (List Char)
  | 0, _ => []
  | 1, s => [s]
  | n + 2, s =>
    match splitFirst sep s with
    | none => [s]
    | some (a, b) => a :: splitN sep (n + 1) b

/-- The parse-and-check step of `getLine` on one line:
`results := strings.SplitN(line, ":", 3)`; the line is accepted when
`len(results) == 3 && len(results[2]) == 128`, in which case getLine
returns `("data" + results[1], results[2])`. -/
def parseLineChars (cs : List Char) : Option (String × String) :=
  match splitN ':' 3 cs with
  | [_, idx, v] =>
    if v.length = 128 then some (String.mk ("data".data ++ idx), String.mk v)
    else none
  | _ => none

def parseLine (line : String) : Option (String × String) :=
  parseLineChars line.data

/-- One iteration of the `for` retry loop of `getLine` at one random
offset: `l1` is the line read at the offset (`none` when `ReadLine`
fails), `l2` the adjacent line read only when the first is rejected.
`none` means the iteration falls through to `continue` and the loop
starts over at a fresh random offset. -/
def getLineIter (l1 l2 : Option String) : Option (String × String) :=
  match l1 with
  | none => none
  | some line1 =>
    match parseLine line1 with
    | some kv => some kv
    | none =>
      match l2 with
      | none => none
      | some line2 => parseLine line2

theorem splitFirst_append (sep : Char) (a b : List Char) (ha : sep ∉ a) :
    splitFirst sep (a ++ sep :: b) = some (a, b) := by
  induction a with
  | nil => simp [splitFirst]
  | cons c a ih =>
    rw [List.mem_cons, not_or] at ha
    have hc : ¬ c = sep := fun h => ha.1 h.symm
    rw [List.cons_append, splitFirst, if_neg hc, ih ha.2]

theorem splitN_three (f idx v : List Char) (hf : ':' ∉ f) (hi : ':' ∉ idx) :
    splitN ':' 3 (f ++ ':' :: (idx ++ ':' :: v)) = [f, idx, v] := by
  have h1 := splitFirst_append ':' f (idx ++ ':' :: v) hf
  have h2 := splitFirst_append ':' idx v hi
  simp [splitN, h1, h2]

/-- Every accepted line yields a 128-character value and a key of the
form `"data" ++ results[1]`. -/
theorem parseLine_sound (line k val : String)
    (h : parseLine line = some (k, val)) :
    val.length = 128 ∧ ∃ f idx, splitN ':' 3 line.data = [f, idx, val.data] ∧
      k = String.mk ("data".data ++ idx) := by
  unfold parseLine parseLineChars at h
  split at h
  · rename_i part1 idx v heq
    split at h
    · rename_i hl
      obtain ⟨hk, hv⟩ := Prod.mk.injEq .. ▸ Option.some_inj.mp h
      refine ⟨?_, part1, idx, ?_, hk.symm⟩
      · rw [← hv]
        exact hl
      · rw [heq, ← hv]
    · exact absurd h (by simp)
  · exact absurd h (by simp)

/-- Claim C6: `getLine` resolves a well-formed line
`<field>:<index>:<value>` with three colon-separated parts and a
128-character value to the pair `("data" + <index>, <value>)`; any
pair it returns comes from a line that passed the three-part /
128-character checks (a malformed line is never surfaced), and a
rejected first line leads to exactly one adjacent-line attempt before
the iteration gives up and restarts at a fresh random offset. -/
theorem getLine_wellformed_only :
    (∀ f idx v : List Char, ':' ∉ f → ':' ∉ idx → v.length = 128 →
      parseLineChars (f ++ ':' :: (idx ++ ':' :: v)) =
        some (String.mk ("data".data ++ idx), String.mk v)) ∧
    (∀ l1 l2 k val, getLineIter l1 l2 = some (k, val) →
      (∃ line, (l1 = some line ∨ l2 = some line) ∧ parseLine line = some (k, val)) ∧
      val.length = 128 ∧ ∃ idx, k = String.mk ("data".data ++ idx)) ∧
    (∀ line1 l2, parseLine line1 = none →
      getLineIter (some line1) l2 = (match l2 with
        | none => none
        | some line2 => parseLine line2)) ∧
    (∀ line1 line2, parseLine line1 = none → parseLine line2 = none →
      getLineIter (some line1) (some line2) = none) := by
  refine ⟨?_, ?_, ?_, ?_⟩
  · intro f idx v hf hi hv
    unfold parseLineChars
    rw [splitN_three f idx v hf hi]
    simp [hv]
  · intro l1 l2 k val h
    unfold getLineIter at h
    split at h
    · exact absurd h (by simp)
    · rename_i line1
      split at h
      · rename_i kv hp1
        obtain rfl : kv = (k, val) := Option.some_inj.mp h
        obtain ⟨hlen, _, idx, _, hk⟩ := parseLine_sound line1 k val hp1
        exact ⟨⟨line1, Or.inl rfl, hp1⟩, hlen, idx, hk⟩
      · rename_i hp1
        split at h
        · exact absurd h (by simp)
        · rename_i line2
          obtain ⟨hlen, _, idx, _, hk⟩ := parseLine_sound line2 k val h
          exact ⟨⟨line2, Or.inr rfl, h⟩, hlen, idx, hk⟩
  · intro line1 l2 hp1
    simp only [getLineIter, hp1]
  · intro line1 line2 hp1 hp2
    simp only [getLineIter, hp1, hp2]

set_option maxRecDepth 8000 in
/-- Witness for C6: the line `data3:7:<128 letters a>` resolves to key
`"data7"` and the 128-character value; one malformed first line falls
through to exactly one adjacent attempt, and two malformed lines make
the iteration start over. -/
theorem getLine_wellformed_only_witness :
    parseLineChars ("data3".data ++ ':' :: ("7".data ++ ':' :: List.replicate 128 'a')) =
      some (String.mk ("data".data ++ "7".data), String.mk (List.replicate 128 'a')) ∧
    ((∃ line,
        (some (String.mk ("data3".data ++ ':' :: ("7".data ++ ':' ::
            List.replicate 128 'a'))) = some line ∨
          (none : Option String) = some line) ∧
        parseLine line =
          some (String.mk ("data".data ++ "7".data),
            String.mk (List.replicate 128 'a'))) ∧
      (String.mk (List.replicate 128 'a')).length = 128 ∧
      ∃ idx, String.mk ("data".data ++ "7".data) = String.mk ("data".data ++ idx)) ∧
    getLineIter (some "zzz") (some "a:b:c") = parseLine "a:b:c" ∧
    getLineIter (some "zzz") (some "yy") = none :=
  ⟨getLine_wellformed_only.1 "data3".data "7".data (List.replicate 128 'a')
    (by decide) (by decide) (by simp),
   getLine_wellformed_only.2.1
    (some (String.mk ("data3".data ++ ':' :: ("7".data ++ ':' ::
      List.replicate 128 'a')))) none
    (String.mk ("data".data ++ "7".data)) (String.mk (List.replicate 128 'a'))
    (by decide),
   getLine_wellformed_only.2.2.1 "zzz" (some "a:b:c") (by decide),
   getLine_wellformed_only.2.2.2 "zzz" "yy" (by decide) (by decide)⟩
